import Mathlib

/-!
Verification of `src/lib/storage.ts` (a thin client wrapper over a cloud
object store) against its natural-language specification.

The TypeScript module is shallowly embedded: JavaScript string primitives
(`split`, `decodeURIComponent`, template interpolation) are translated into
executable Lean functions over `List Char` / `String`; the external
collaborators (object store, `fetch`, the platform URL parser) are passed in
as explicit oracles; `Date.now()` becomes an explicit timestamp argument; a
`try`/`catch` block becomes an explicit effect record (calls made, errors
logged, error propagated).
-/

set_option maxHeartbeats 1000000

namespace Storage

/-! ### JavaScript string primitives used by `storage.ts` -/

/-- Embedding of JavaScript `s.split(sep)` for a one-character separator
`sep`, acting on the character list of `s`.  `split` never returns an empty
array: splitting `""` yields `[""]` and splitting a string without the
separator yields the one-element array holding the whole string. -/
def jsSplitChar (sep : Char) : List Char → List (List Char)
  | [] => [[]]
  | c :: rest =>
    if c = sep then [] :: jsSplitChar sep rest
    else
      match jsSplitChar sep rest with
      | h :: t => (c :: h) :: t
      | [] => [[c]]

/-! ### Path builders (`getTattooImagePath`, `getGeneratedTattooImagePath`) -/

/-- Embedding of `fileName.split('.').pop()` followed by template
interpolation.  JavaScript `pop()` yields `undefined` only on an empty
array, and interpolating `undefined` produces the string `"undefined"`;
since `split` never yields an empty array the fallback is unreachable. -/
def extensionOf (fileName : String) : String :=
  match (jsSplitChar '.' fileName.data).getLast? with
  | some ext => ⟨ext⟩
  | none => "undefined"

/-- Embedding of `getTattooImagePath` from `src/lib/storage.ts`; the
`Date.now()` millisecond timestamp is passed explicitly. -/
def getTattooImagePath (userId tattooId fileName : String) (timestamp : Nat) : String :=
  "tattoos/" ++ userId ++ "/" ++ tattooId ++ "_" ++ toString timestamp ++ "." ++
    extensionOf fileName

/-- Embedding of `getGeneratedTattooImagePath` from `src/lib/storage.ts`. -/
def getGeneratedTattooImagePath (userId tattooId : String) (timestamp : Nat) : String :=
  "generated_tattoos/" ++ userId ++ "/" ++ tattooId ++ "_" ++ toString timestamp ++ ".png"

/-- The asset-category namespace of a storage key: its first
slash-delimited segment. -/
def keyCategory (key : String) : String :=
  ⟨key.data.takeWhile (fun c => c ≠ '/')⟩

/-- The unreserved characters of `encodeURIComponent`: those it copies to
its output unescaped (`A–Z a–z 0–9 - _ . ! ~ * ' ( )`). -/
def isUnreservedURI (c : Char) : Bool :=
  c.isAlphanum || c == '-' || c == '_' || c == '.' || c == '!' || c == '~' ||
    c == '*' || c == Char.ofNat 39 || c == '(' || c == ')'

/-- Uppercase hexadecimal digit character for `n < 16`. -/
def hexDigitChar (n : Nat) : Char :=
  "0123456789ABCDEF".data.getD n '0'

/-- Numeric value of a hexadecimal digit character (both cases), as used by
`decodeURIComponent` when reading a `%XX` escape. -/
def hexCharVal (c : Char) : Option Nat :=
  if '0' ≤ c ∧ c ≤ '9' then some (c.toNat - 48)
  else if 'A' ≤ c ∧ c ≤ 'F' then some (c.toNat - 55)
  else if 'a' ≤ c ∧ c ≤ 'f' then some (c.toNat - 87)
  else none

/-- The `%XX` escape of a byte. -/
def pctByte (b : Nat) : List Char :=
  ['%', hexDigitChar (b / 16), hexDigitChar (b % 16)]

/-- UTF-8 encoding of a Unicode scalar value as a byte list. -/
def utf8Bytes (n : Nat) : List Nat :=
  if n < 0x80 then [n]
  else if n < 0x800 then [0xC0 + n / 64, 0x80 + n % 64]
  else if n < 0x10000 then [0xE0 + n / 4096, 0x80 + n / 64 % 64, 0x80 + n % 64]
  else [0xF0 + n / 0x40000, 0x80 + n / 4096 % 64, 0x80 + n / 64 % 64, 0x80 + n % 64]

/-- Modelled from the spec: the provider-side percent-encoding of a storage
key inside a download URL ("the StorageKey percent-encoded after a fixed
marker segment").  This is JavaScript `encodeURIComponent` applied to one
character: unreserved characters pass through, every other character is
UTF-8 encoded and each byte written as `%XX`. -/
def percentEncodeChar (c : Char) : List Char :=
  if isUnreservedURI c then [c]
  else (utf8Bytes c.toNat).flatMap pctByte

/-- Modelled from the spec: provider-side percent-encoding of a whole
storage key (JavaScript `encodeURIComponent`). -/
def encodeURIComponent (s : String) : String :=
  ⟨s.data.flatMap percentEncodeChar⟩

/-- First phase of `decodeURIComponent`: scan the input, turning each
`%XX` escape into a byte (`Sum.inr`) and passing other characters through
(`Sum.inl`); `none` models the `URIError` thrown on an incomplete or
non-hexadecimal escape. -/
def tokenizePercent : List Char → Option (List (Char ⊕ Nat))
  | [] => some []
  | '%' :: h1 :: h2 :: rest2 =>
    match hexCharVal h1, hexCharVal h2 with
    | some a, some b =>
      (tokenizePercent rest2).map (fun us => Sum.inr (a * 16 + b) :: us)
    | _, _ => none
  | '%' :: _ => none
  | c :: rest => (tokenizePercent rest).map (fun us => Sum.inl c :: us)

/-- Minimal-length / scalar-range check at the end of a UTF-8 sequence of
`total` bytes with decoded value `v` (rejects overlong encodings,
surrogates and values past `0x10FFFF`, as `decodeURIComponent` does). -/
def utf8ScalarOk (total v : Nat) : Bool :=
  if total = 2 then decide (0x80 ≤ v)
  else if total = 3 then decide (0x800 ≤ v ∧ (v < 0xD800 ∨ 0xE000 ≤ v))
  else decide (0x10000 ≤ v ∧ v < 0x110000)

/-- Second phase of `decodeURIComponent`: UTF-8 decode the byte runs,
leaving pass-through characters alone; `none` models the `URIError` thrown
on an invalid, overlong, surrogate or out-of-range UTF-8 sequence.  The
state `some (k, acc, total)` means: inside a `total`-byte sequence, `k`
continuation bytes still expected, `acc` the value decoded so far. -/
def utf8Acc : Option (Nat × Nat × Nat) → List (Char ⊕ Nat) → Option (List Char)
  | none, [] => some []
  | some _, [] => none
  | none, Sum.inl c :: rest => (utf8Acc none rest).map (fun cs => c :: cs)
  | some _, Sum.inl _ :: _ => none
  | none, Sum.inr b :: rest =>
    if b < 0x80 then (utf8Acc none rest).map (fun cs => Char.ofNat b :: cs)
    else if b < 0xC2 then none
    else if b < 0xE0 then utf8Acc (some (1, b - 0xC0, 2)) rest
    else if b < 0xF0 then utf8Acc (some (2, b - 0xE0, 3)) rest
    else if b < 0xF5 then utf8Acc (some (3, b - 0xF0, 4)) rest
    else none
  | some (0, _, _), Sum.inr _ :: _ => none
  | some (1, acc, total), Sum.inr b :: rest =>
    if 0x80 ≤ b ∧ b < 0xC0 then
      if utf8ScalarOk total (acc * 64 + (b - 0x80)) then
        (utf8Acc none rest).map (fun cs => Char.ofNat (acc * 64 + (b - 0x80)) :: cs)
      else none
    else none
  | some (k + 2, acc, total), Sum.inr b :: rest =>
    if 0x80 ≤ b ∧ b < 0xC0 then utf8Acc (some (k + 1, acc * 64 + (b - 0x80), total)) rest
    else none

/-- UTF-8 decoding of a scanned unit list, starting outside any byte
sequence. -/
def utf8DecodeUnits (us : List (Char ⊕ Nat)) : Option (List Char) :=
  utf8Acc none us

/-- Embedding of the ECMAScript builtin `decodeURIComponent` used by
`deleteImage`; `none` models a thrown `URIError`. -/
def decodeURIComponent (s : String) : Option String :=
  match tokenizePercent s.data with
  | none => none
  | some units =>
    match utf8DecodeUnits units with
    | none => none
    | some chars => some ⟨chars⟩

/-- The token list produced by scanning the percent-encoding of one
character. -/
def encUnits (c : Char) : List (Char ⊕ Nat) :=
  if isUnreservedURI c then [Sum.inl c]
  else (utf8Bytes c.toNat).map Sum.inr

/-! ### JavaScript `split('/o/')`, the marker split used by `deleteImage` -/

/-- Prepend a character to the first piece of a split result (the
accumulator step of JavaScript `split`). -/
def consHead (c : Char) : List (List Char) → List (List Char)
  | h :: t => (c :: h) :: t
  | [] => [[c]]

/-- Embedding of JavaScript `s.split('/o/')`: left-to-right,
non-overlapping occurrences of the three-character marker `/o/` divide the
string into pieces. -/
def jsSplitMarker : List Char → List (List Char)
  | '/' :: 'o' :: '/' :: rest => [] :: jsSplitMarker rest
  | c :: rest => consHead c (jsSplitMarker rest)
  | [] => [[]]

/-- Whether the marker `/o/` occurs anywhere in the string. -/
def hasMarker : List Char → Bool
  | [] => false
  | c :: rest => decide ((c :: rest).take 3 = ['/', 'o', '/']) || hasMarker rest

/-! ### The platform URL parser and the Deleter (`deleteImage`) -/

/-- The `URL` object, restricted to the one property `deleteImage` reads. -/
structure JsURL where
  pathname : String

/-- Model of the WHATWG URL parser (`new URL(...)`) for absolute `https://`
URLs — the scheme of every provider download URL.  `none` models the
`TypeError` thrown on other inputs; otherwise `pathname` is the path
component: from the first `/` after the host up to the start of the query
or fragment, and `"/"` when the URL has no path. -/
def parseURL (s : String) : Option JsURL :=
  if s.data.take 8 = "https://".data then
    if ((s.data.drop 8).dropWhile (fun c => c ≠ '/' ∧ c ≠ '?' ∧ c ≠ '#')).head? = some '/' then
      some ⟨⟨((s.data.drop 8).dropWhile (fun c => c ≠ '/' ∧ c ≠ '?' ∧ c ≠ '#')).takeWhile
        (fun c => c ≠ '?' ∧ c ≠ '#')⟩⟩
    else some ⟨"/"⟩
  else none

/-- Embedding of `url.pathname.split('/o/')[1]?.split('?')[0] || ''` from
`deleteImage`: the segment after the first `/o/` marker, cut at the first
`?`, or `""` when the split has no second element. -/
def extractEncodedPath (pathname : String) : String :=
  match jsSplitMarker pathname.data with
  | _ :: second :: _ => ⟨second.takeWhile (fun c => c ≠ '?')⟩
  | _ => ""

/-- The JavaScript exceptions that can arise inside `deleteImage`'s `try`
block: a `TypeError` from `new URL`, a `URIError` from
`decodeURIComponent`, or a Firebase storage error carrying a `.code`. -/
inductive JsError where
  | urlParse : JsError
  | uriMalformed : JsError
  | storage : String → JsError
deriving DecidableEq

/-- Outcome of the store's `deleteObject` call for a given path. -/
inductive DeleteOutcome where
  | ok : DeleteOutcome
  | err : String → DeleteOutcome

/-- The `.code` property read by the `catch` handler (`undefined` — `none` —
for non-Firebase errors). -/
def errCode : JsError → Option String
  | .storage code => some code
  | _ => none

/-- Observable effects of one `deleteImage` call: the paths passed to
`deleteObject`, the errors passed to `console.error`, and the error
propagated to the caller (if any). -/
structure DeleteRun where
  deleteCalls : List String
  logged : List JsError
  thrown : Option JsError

/-- The `try` block of `deleteImage`: parse the URL, recover the path,
and, when the path is non-empty, call `deleteObject`.  Returns the delete
calls made and the exception escaping the block, if any. -/
def deleteAttempt (store : String → DeleteOutcome) (imageUrl : String) :
    List String × Option JsError :=
  match parseURL imageUrl with
  | none => ([], some .urlParse)
  | some u =>
    match decodeURIComponent (extractEncodedPath u.pathname) with
    | none => ([], some .uriMalformed)
    | some path =>
      if path = "" then ([], none)
      else
        match store path with
        | .ok => ([path], none)
        | .err code => ([path], some (.storage code))

/-- Embedding of `deleteImage` from `src/lib/storage.ts`: the `try` block
wrapped in the `catch` handler, which returns silently on
`storage/object-not-found` and logs (without rethrowing) any other
exception. -/
def deleteImage (store : String → DeleteOutcome) (imageUrl : String) : DeleteRun :=
  match deleteAttempt store imageUrl with
  | (calls, none) => ⟨calls, [], none⟩
  | (calls, some e) =>
    if errCode e = some "storage/object-not-found" then ⟨calls, [], none⟩
    else ⟨calls, [e], none⟩

/-- The storage key recovered by `deleteImage`'s parsing rule: `none` when
URL parsing or percent-decoding throws. -/
def parsedKey (imageUrl : String) : Option String :=
  match parseURL imageUrl with
  | none => none
  | some u => decodeURIComponent (extractEncodedPath u.pathname)

/-- Modelled from the spec: the download URL issued by the provider for a
stored key — "the StorageKey percent-encoded after a fixed marker segment"
in the URL's path, followed by a query string.  (The issuing side lives in
the external storage provider, not in this repository.) -/
def firebaseDownloadURL (bucket key token : String) : String :=
  "https://firebasestorage.googleapis.com/v0/b/" ++ bucket ++ "/o/"
    ++ encodeURIComponent key ++ "?alt=media&token=" ++ token

/-! ### Uploader (`uploadImage`) and BlobConverter (`blobUrlToFile`) -/

/-- A JavaScript `File`: a named, typed byte payload. -/
structure JsFile where
  name : String
  type : String
  bytes : List Nat
deriving DecidableEq

/-- A JavaScript `Blob` as returned by `response.blob()`. -/
structure JsBlob where
  type : String
  bytes : List Nat

/-- The two store operations `uploadImage` awaits, in order. -/
inductive StoreCall where
  | put : String → JsFile → StoreCall
  | resolveUrl : String → StoreCall
deriving DecidableEq

/-- The store capability used by `uploadImage`: `uploadBytes` and
`getDownloadURL`, each either succeeding or rejecting with an error. -/
structure StoreOps where
  uploadBytes : String → JsFile → Except JsError Unit
  getDownloadURL : String → Except JsError String

/-- Observable effects of one `uploadImage` call: the store calls made, in
order, and the settled result (the download URL, or the first rejection
propagated unmodified). -/
structure UploadRun where
  calls : List StoreCall
  result : Except JsError String

/-- Embedding of `uploadImage` from `src/lib/storage.ts`: `await
uploadBytes`, then `await getDownloadURL`, returning its URL; a rejection
at either step escapes the (try-free) function body at that point. -/
def uploadImage (ops : StoreOps) (file : JsFile) (path : String) : UploadRun :=
  match ops.uploadBytes path file with
  | .error e => ⟨[.put path file], .error e⟩
  | .ok _ =>
    match ops.getDownloadURL path with
    | .error e => ⟨[.put path file, .resolveUrl path], .error e⟩
    | .ok url => ⟨[.put path file, .resolveUrl path], .ok url⟩

/-- Embedding of `blobUrlToFile` from `src/lib/storage.ts`: `fetch` the
blob URL (modelled as an oracle from URLs to blobs or errors), then wrap
the bytes in a `File` named `fileName` whose MIME type is the blob's
reported type, or `"image/png"` when the blob reports the empty type
(JavaScript `blob.type || 'image/png'`). -/
def blobUrlToFile (fetchBlob : String → Except JsError JsBlob)
    (blobUrl fileName : String) : Except JsError JsFile :=
  match fetchBlob blobUrl with
  | .error e => .error e
  | .ok blob => .ok ⟨fileName, if blob.type = "" then "image/png" else blob.type, blob.bytes⟩

theorem jsSplitChar_ne_nil (sep : Char) (l : List Char) : jsSplitChar sep l ≠ [] := by
  cases l with
  | nil => simp [jsSplitChar]
  | cons c rest =>
    simp only [jsSplitChar]
    split
    · simp
    · split <;> simp

theorem jsSplitChar_of_not_mem (sep : Char) (l : List Char) (h : sep ∉ l) :
    jsSplitChar sep l = [l] := by
  induction l with
  | nil => rfl
  | cons c rest ih =>
    simp only [List.mem_cons, not_or] at h
    simp only [jsSplitChar]
    rw [if_neg (fun hc => h.1 hc.symm), ih h.2]

theorem getLast?_cons_of_ne_nil {α : Type} (x : α) (xs : List α) (h : xs ≠ []) :
    (x :: xs).getLast? = xs.getLast? := by
  cases xs with
  | nil => exact absurd rfl h
  | cons y ys => exact List.getLast?_cons_cons

theorem two_le_length_jsSplitChar (sep : Char) (l : List Char) (h : sep ∈ l) :
    2 ≤ (jsSplitChar sep l).length := by
  induction l with
  | nil => simp at h
  | cons c rest ih =>
    simp only [jsSplitChar]
    by_cases hc : c = sep
    · rw [if_pos hc]
      have := List.length_pos.mpr (jsSplitChar_ne_nil sep rest)
      simp only [List.length_cons]
      omega
    · rw [if_neg hc]
      have hmem : sep ∈ rest := by
        rcases List.mem_cons.mp h with h1 | h2
        · exact absurd h1.symm hc
        · exact h2
      have h2 := ih hmem
      rcases hsp : jsSplitChar sep rest with _ | ⟨hd, tl⟩
      · exact absurd hsp (jsSplitChar_ne_nil sep rest)
      · rw [hsp] at h2
        simpa using h2

theorem jsSplitChar_getLast?_append (sep : Char) (l₁ l₂ : List Char) :
    (jsSplitChar sep (l₁ ++ sep :: l₂)).getLast? = (jsSplitChar sep l₂).getLast? := by
  induction l₁ with
  | nil =>
    simp only [List.nil_append, jsSplitChar, if_pos rfl]
    exact getLast?_cons_of_ne_nil _ _ (jsSplitChar_ne_nil sep l₂)
  | cons c l₁' ih =>
    simp only [List.cons_append, jsSplitChar, List.append_eq]
    by_cases hc : c = sep
    · rw [if_pos hc]
      rw [getLast?_cons_of_ne_nil _ _ (jsSplitChar_ne_nil sep (l₁' ++ sep :: l₂))]
      exact ih
    · rw [if_neg hc]
      have hmem : sep ∈ l₁' ++ sep :: l₂ := by simp
      have hlen := two_le_length_jsSplitChar sep _ hmem
      rcases hsp : jsSplitChar sep (l₁' ++ sep :: l₂) with _ | ⟨hd, tl⟩
      · exact absurd hsp (jsSplitChar_ne_nil sep _)
      · rw [hsp] at hlen ih
        have htl : tl ≠ [] := by
          cases tl with
          | nil => simp at hlen
          | cons a b => simp
        rw [getLast?_cons_of_ne_nil _ _ htl] at ih ⊢
        exact ih

theorem data_append (a b : String) : (a ++ b).data = a.data ++ b.data := rfl

theorem mk_data (s : String) : (⟨s.data⟩ : String) = s := rfl

theorem extensionOf_of_not_mem (f : String) (h : '.' ∉ f.data) : extensionOf f = f := by
  unfold extensionOf
  rw [jsSplitChar_of_not_mem '.' f.data h]
  simp [mk_data]

theorem extensionOf_last_dot (f : String) (l₁ l₂ : List Char)
    (hf : f.data = l₁ ++ '.' :: l₂) (h : '.' ∉ l₂) : extensionOf f = ⟨l₂⟩ := by
  unfold extensionOf
  rw [hf, jsSplitChar_getLast?_append, jsSplitChar_of_not_mem '.' l₂ h]
  simp

theorem takeWhile_append_of_all {α : Type} (p : α → Bool) (l₁ l₂ : List α)
    (h : ∀ c ∈ l₁, p c = true) :
    (l₁ ++ l₂).takeWhile p = l₁ ++ l₂.takeWhile p := by
  induction l₁ with
  | nil => simp
  | cons c l ih =>
    have hc : p c = true := h c (List.mem_cons_self c l)
    simp [List.takeWhile_cons, hc, ih (fun x hx => h x (List.mem_cons_of_mem c hx))]

theorem takeWhile_until_slash (l₁ l₂ : List Char) (h : '/' ∉ l₁) :
    (l₁ ++ '/' :: l₂).takeWhile (fun c => c ≠ '/') = l₁ := by
  induction l₁ with
  | nil => simp [List.takeWhile_cons]
  | cons c l ih =>
    simp only [List.mem_cons, not_or] at h
    have hc : c ≠ '/' := fun he => h.1 he.symm
    have ih' := ih h.2
    simp only [ne_eq, decide_not] at ih' ⊢
    simp [List.takeWhile_cons, hc, ih']

theorem length_jsSplitChar (sep : Char) (l : List Char) :
    (jsSplitChar sep l).length = l.count sep + 1 := by
  induction l with
  | nil => simp [jsSplitChar]
  | cons c rest ih =>
    simp only [jsSplitChar]
    by_cases hc : c = sep
    · subst hc
      rw [if_pos rfl]
      simp only [List.length_cons, ih, List.count_cons_self]
    · rw [if_neg hc]
      rcases hsp : jsSplitChar sep rest with _ | ⟨hd, tl⟩
      · exact absurd hsp (jsSplitChar_ne_nil sep rest)
      · rw [hsp] at ih
        simp only [List.length_cons] at ih ⊢
        rw [List.count_cons_of_ne (fun he => hc he.symm)]
        exact ih

/-- Every character of `Nat.toDigitsCore 10 fuel n ds` is a decimal digit or
comes from the accumulator `ds`. -/
theorem mem_toDigitsCore (fuel : Nat) : ∀ (n : Nat) (ds : List Char) (c : Char),
    c ∈ Nat.toDigitsCore 10 fuel n ds →
    c ∈ ds ∨ c ∈ ['0', '1', '2', '3', '4', '5', '6', '7', '8', '9'] := by
  induction fuel with
  | zero => intro n ds c hc; exact Or.inl hc
  | succ f ih =>
    intro n ds c hc
    have hd : Nat.digitChar (n % 10) ∈ ['0', '1', '2', '3', '4', '5', '6', '7', '8', '9'] := by
      have h10 : n % 10 < 10 := Nat.mod_lt _ (by omega)
      interval_cases h : n % 10 <;> simp [Nat.digitChar]
    simp only [Nat.toDigitsCore] at hc
    split at hc
    · rcases List.mem_cons.mp hc with h | h
      · exact Or.inr (h ▸ hd)
      · exact Or.inl h
    · rcases ih (n / 10) (Nat.digitChar (n % 10) :: ds) c hc with h | h
      · rcases List.mem_cons.mp h with h1 | h1
        · exact Or.inr (h1 ▸ hd)
        · exact Or.inl h1
      · exact Or.inr h

theorem mem_repr_digit (n : Nat) (c : Char) (hc : c ∈ (toString n).data) :
    c ∈ ['0', '1', '2', '3', '4', '5', '6', '7', '8', '9'] := by
  have hrepr : (toString n).data = Nat.toDigitsCore 10 (n + 1) n [] := rfl
  rw [hrepr] at hc
  rcases mem_toDigitsCore (n + 1) n [] c hc with h | h
  · simp at h
  · exact h

theorem count_slash_toString (n : Nat) : (toString n).data.count '/' = 0 := by
  refine List.count_eq_zero.mpr (fun hmem => ?_)
  have := mem_repr_digit n '/' hmem
  simp at this

/-! ### Claim theorems about the path builders -/

/-- Claim C2 counterexample: for `fileName = "photo"` (no `.`), the key's
extension segment is `"photo"` itself, not the literal `"undefined"` the
claim asserts: JavaScript `split` never returns an empty array, so `pop()`
never yields `undefined` here. -/
theorem getTattooImagePath_undefined_refuted :
    getTattooImagePath "u1" "t1" "photo" 1700000000000
      = "tattoos/u1/t1_1700000000000.photo"
    ∧ getTattooImagePath "u1" "t1" "photo" 1700000000000
      ≠ "tattoos/u1/t1_1700000000000.undefined" := by
  constructor <;> decide

/-- Claim C2 (amended): for every `originalFileName` containing no `.`,
`getTattooImagePath` returns a key whose extension segment is the whole
`originalFileName` (splitting on an absent delimiter returns the entire
string, and `pop` takes it), i.e. a key of shape
`"tattoos/<ownerId>/<artifactId>_<timestampMs>.<originalFileName>"`. -/
theorem getTattooImagePath_noDot_ext (u t f : String) (ts : Nat) (h : '.' ∉ f.data) :
    getTattooImagePath u t f ts
      = "tattoos/" ++ u ++ "/" ++ t ++ "_" ++ toString ts ++ "." ++ f := by
  unfold getTattooImagePath
  rw [extensionOf_of_not_mem f h]

theorem getTattooImagePath_noDot_ext_witness :
    '.' ∉ "photo".data
    ∧ getTattooImagePath "u1" "t1" "photo" 3
        = "tattoos/" ++ "u1" ++ "/" ++ "t1" ++ "_" ++ toString 3 ++ "." ++ "photo" :=
  ⟨by decide, getTattooImagePath_noDot_ext "u1" "t1" "photo" 3 (by decide)⟩

/-- Claim C3: for every `ownerId`, `artifactId` and `fileName` containing at
least one `.` (decomposed as `l₁ ++ '.' :: l₂` with `l₂` dot-free, so `l₂`
is the substring after the last `.`), `getTattooImagePath` returns exactly
`"tattoos/<ownerId>/<artifactId>_<timestampMs>.<l₂>"`. -/
theorem getTattooImagePath_shape (u t f : String) (l₁ l₂ : List Char) (ts : Nat)
    (hf : f.data = l₁ ++ '.' :: l₂) (hl : '.' ∉ l₂) :
    getTattooImagePath u t f ts
      = "tattoos/" ++ u ++ "/" ++ t ++ "_" ++ toString ts ++ "." ++ (⟨l₂⟩ : String) := by
  unfold getTattooImagePath
  rw [extensionOf_last_dot f l₁ l₂ hf hl]

theorem getTattooImagePath_shape_witness :
    "photo.jpg".data = ['p', 'h', 'o', 't', 'o'] ++ '.' :: ['j', 'p', 'g']
    ∧ '.' ∉ ['j', 'p', 'g']
    ∧ getTattooImagePath "u1" "t1" "photo.jpg" 1700000000000
        = "tattoos/" ++ "u1" ++ "/" ++ "t1" ++ "_" ++ toString 1700000000000 ++ "."
          ++ (⟨['j', 'p', 'g']⟩ : String) :=
  ⟨by decide, by decide,
   getTattooImagePath_shape "u1" "t1" "photo.jpg" ['p', 'h', 'o', 't', 'o'] ['j', 'p', 'g']
     1700000000000 (by decide) (by decide)⟩

theorem keyCategory_user (u t f : String) (ts : Nat) :
    keyCategory (getTattooImagePath u t f ts) = "tattoos" := by
  unfold keyCategory getTattooImagePath
  simp only [data_append, List.append_assoc, List.cons_append, List.nil_append]
  simp only [List.takeWhile_cons]
  norm_num
  rfl

theorem keyCategory_generated (u t : String) (ts : Nat) :
    keyCategory (getGeneratedTattooImagePath u t ts) = "generated_tattoos" := by
  unfold keyCategory getGeneratedTattooImagePath
  simp only [data_append, List.append_assoc, List.cons_append, List.nil_append]
  simp only [List.takeWhile_cons]
  norm_num
  rfl

/-- Claim C6: `getGeneratedTattooImagePath` returns a key of the same
`"<category>/<ownerId>/<artifactId>_<timestampMs>.<ext>"` shape ending in
`".png"`, whose category (`"generated_tattoos"`) is a top-level prefix
distinct from the user-asset category (`"tattoos"`). -/
theorem getGeneratedTattooImagePath_shape (u t f : String) (ts : Nat) :
    getGeneratedTattooImagePath u t ts
      = "generated_tattoos/" ++ u ++ "/" ++ t ++ "_" ++ toString ts ++ ".png"
    ∧ (∃ pre, (getGeneratedTattooImagePath u t ts).data = pre ++ ".png".data)
    ∧ keyCategory (getGeneratedTattooImagePath u t ts) = "generated_tattoos"
    ∧ keyCategory (getTattooImagePath u t f ts) = "tattoos"
    ∧ ("generated_tattoos" : String) ≠ "tattoos" :=
  ⟨rfl,
   ⟨("generated_tattoos/" ++ u ++ "/" ++ t ++ "_" ++ toString ts).data, rfl⟩,
   keyCategory_generated u t ts,
   keyCategory_user u t f ts,
   by decide⟩

/-- Claim C9: both path builders are deterministic functions of their inputs
and the captured millisecond timestamp: equal timestamps (with identical
inputs) give identical keys, and keys can differ only if the captured
timestamps differ. -/
theorem pathBuilders_deterministic (u t f : String) (ts₁ ts₂ : Nat) :
    (ts₁ = ts₂ →
      getTattooImagePath u t f ts₁ = getTattooImagePath u t f ts₂
      ∧ getGeneratedTattooImagePath u t ts₁ = getGeneratedTattooImagePath u t ts₂)
    ∧ (getTattooImagePath u t f ts₁ ≠ getTattooImagePath u t f ts₂ → ts₁ ≠ ts₂)
    ∧ (getGeneratedTattooImagePath u t ts₁ ≠ getGeneratedTattooImagePath u t ts₂ →
        ts₁ ≠ ts₂) :=
  ⟨fun h => by rw [h]; exact ⟨rfl, rfl⟩,
   fun h he => h (by rw [he]),
   fun h he => h (by rw [he])⟩

theorem pathBuilders_deterministic_witness :
    getTattooImagePath "u" "t" "a.png" 7 = getTattooImagePath "u" "t" "a.png" 7
    ∧ getGeneratedTattooImagePath "u" "t" 7 = getGeneratedTattooImagePath "u" "t" 7 :=
  (pathBuilders_deterministic "u" "t" "a.png" 7 7).1 rfl

/-- Claim C10: the builders interpolate `ownerId`, `artifactId` and the
derived extension verbatim, with no sanitization: the number of
slash-delimited segments of the returned key is `3` plus the number of `/`
characters occurring in those inputs, so the key exceeds the three-segment
shape exactly when an interpolated input contains `/`, and keeps it when
all are slash-free. -/
theorem pathBuilders_no_sanitization (u t f : String) (ts : Nat) :
    (jsSplitChar '/' (getTattooImagePath u t f ts).data).length
      = 3 + u.data.count '/' + t.data.count '/' + (extensionOf f).data.count '/'
    ∧ (jsSplitChar '/' (getGeneratedTattooImagePath u t ts).data).length
      = 3 + u.data.count '/' + t.data.count '/'
    ∧ ('/' ∈ u.data ∨ '/' ∈ t.data ∨ '/' ∈ (extensionOf f).data →
        3 < (jsSplitChar '/' (getTattooImagePath u t f ts).data).length)
    ∧ ('/' ∉ u.data → '/' ∉ t.data → '/' ∉ (extensionOf f).data →
        (jsSplitChar '/' (getTattooImagePath u t f ts).data).length = 3)
    ∧ ('/' ∈ u.data ∨ '/' ∈ t.data →
        3 < (jsSplitChar '/' (getGeneratedTattooImagePath u t ts).data).length)
    ∧ ('/' ∉ u.data → '/' ∉ t.data →
        (jsSplitChar '/' (getGeneratedTattooImagePath u t ts).data).length = 3) := by
  have h1 : ("tattoos/" : String).data.count '/' = 1 := by decide
  have h2 : ("/" : String).data.count '/' = 1 := by decide
  have h3 : ("_" : String).data.count '/' = 0 := by decide
  have h4 : ("." : String).data.count '/' = 0 := by decide
  have h5 : ("generated_tattoos/" : String).data.count '/' = 1 := by decide
  have h6 : (".png" : String).data.count '/' = 0 := by decide
  have h7 := count_slash_toString ts
  have hu : (jsSplitChar '/' (getTattooImagePath u t f ts).data).length
      = 3 + u.data.count '/' + t.data.count '/' + (extensionOf f).data.count '/' := by
    rw [length_jsSplitChar]
    simp only [getTattooImagePath, data_append, List.count_append, h1, h2, h3, h4, h7]
    omega
  have hg : (jsSplitChar '/' (getGeneratedTattooImagePath u t ts).data).length
      = 3 + u.data.count '/' + t.data.count '/' := by
    rw [length_jsSplitChar]
    simp only [getGeneratedTattooImagePath, data_append, List.count_append, h2, h3, h5, h6, h7]
    omega
  refine ⟨hu, hg, ?_, ?_, ?_, ?_⟩
  · intro h
    rw [hu]
    rcases h with h | h | h <;>
      · have : _ ≠ 0 := fun h0 => (List.count_eq_zero.mp h0) h
        omega
  · intro hnu hnt hne
    rw [hu, List.count_eq_zero.mpr hnu, List.count_eq_zero.mpr hnt, List.count_eq_zero.mpr hne]
  · intro h
    rw [hg]
    rcases h with h | h <;>
      · have : _ ≠ 0 := fun h0 => (List.count_eq_zero.mp h0) h
        omega
  · intro hnu hnt
    rw [hg, List.count_eq_zero.mpr hnu, List.count_eq_zero.mpr hnt]

theorem pathBuilders_no_sanitization_witness :
    ('/' ∈ "a/b".data ∨ '/' ∈ "t".data ∨ '/' ∈ (extensionOf "x.png").data)
    ∧ 3 < (jsSplitChar '/' (getTattooImagePath "a/b" "t" "x.png" 0).data).length :=
  ⟨Or.inl (by decide),
   (pathBuilders_no_sanitization "a/b" "t" "x.png" 0).2.2.1 (Or.inl (by decide))⟩

/-! ### Percent-encoding and `decodeURIComponent`

`deleteImage` calls the ECMAScript builtin `decodeURIComponent`, which
replaces each maximal run of `%XX` escapes by the UTF-8 decoding of the
escaped bytes and throws a `URIError` on malformed input.  The inverse
(`encodeURIComponent`-style strict percent-encoding of the storage key) is
performed by the external storage provider when issuing download URLs. -/

theorem charOfNat_toNat (c : Char) : Char.ofNat c.toNat = c := by
  rcases c with ⟨⟨⟨n, hn⟩⟩, hv⟩
  have hvn : Nat.isValidChar n := hv
  show Char.ofNat n = _
  unfold Char.ofNat
  rw [dif_pos hvn]
  rfl

theorem hexCharVal_hexDigitChar (n : Nat) (h : n < 16) :
    hexCharVal (hexDigitChar n) = some n := by
  interval_cases n <;> decide

theorem hexDigitChar_mem (n : Nat) : hexDigitChar n ∈ "0123456789ABCDEF".data := by
  unfold hexDigitChar
  by_cases h : n < 16
  · interval_cases n <;> decide
  · rw [List.getD_eq_default]
    · decide
    · show 16 ≤ n
      omega

theorem mem_percentEncodeChar (c x : Char) (hx : x ∈ percentEncodeChar c) :
    isUnreservedURI x = true ∨ x = '%' ∨ x ∈ "0123456789ABCDEF".data := by
  unfold percentEncodeChar at hx
  split at hx
  · next h =>
    rw [List.mem_singleton.mp hx]
    exact Or.inl h
  · rcases List.mem_flatMap.mp hx with ⟨b, _, hxb⟩
    unfold pctByte at hxb
    simp only [List.mem_cons, List.mem_singleton, List.not_mem_nil, or_false] at hxb
    rcases hxb with rfl | rfl | rfl
    · exact Or.inr (Or.inl rfl)
    · exact Or.inr (Or.inr (hexDigitChar_mem _))
    · exact Or.inr (Or.inr (hexDigitChar_mem _))

theorem not_mem_encodeURIComponent (x : Char) (hu : isUnreservedURI x = false)
    (hp : x ≠ '%') (hh : x ∉ "0123456789ABCDEF".data) (s : String) :
    x ∉ (encodeURIComponent s).data := by
  intro hx
  have hx' : x ∈ s.data.flatMap percentEncodeChar := hx
  rcases List.mem_flatMap.mp hx' with ⟨c, _, hxc⟩
  rcases mem_percentEncodeChar c x hxc with h | h | h
  · rw [h] at hu; cases hu
  · exact hp h
  · exact hh h

theorem slash_not_mem_enc (s : String) : '/' ∉ (encodeURIComponent s).data :=
  not_mem_encodeURIComponent '/' (by decide) (by decide) (by decide) s

theorem qmark_not_mem_enc (s : String) : '?' ∉ (encodeURIComponent s).data :=
  not_mem_encodeURIComponent '?' (by decide) (by decide) (by decide) s

theorem hash_not_mem_enc (s : String) : '#' ∉ (encodeURIComponent s).data :=
  not_mem_encodeURIComponent '#' (by decide) (by decide) (by decide) s

theorem utf8Bytes_lt (n : Nat) (hn : n < 0x110000) : ∀ b ∈ utf8Bytes n, b < 256 := by
  intro b hb
  unfold utf8Bytes at hb
  split at hb
  · simp only [List.mem_singleton] at hb
    omega
  · split at hb
    · simp only [List.mem_cons, List.not_mem_nil, or_false] at hb
      rcases hb with rfl | rfl <;> omega
    · split at hb
      · simp only [List.mem_cons, List.not_mem_nil, or_false] at hb
        rcases hb with rfl | rfl | rfl <;> omega
      · simp only [List.mem_cons, List.not_mem_nil, or_false] at hb
        rcases hb with rfl | rfl | rfl | rfl <;> omega

theorem tokenizePercent_plain (c : Char) (rest : List Char) (hc : c ≠ '%') :
    tokenizePercent (c :: rest) = (tokenizePercent rest).map (fun us => Sum.inl c :: us) := by
  cases rest with
  | nil => simp [tokenizePercent, hc]
  | cons a l =>
    cases l with
    | nil => simp [tokenizePercent, hc]
    | cons a2 l2 => simp [tokenizePercent, hc]

theorem tokenizePercent_pctHead (h1 h2 : Char) (rest : List Char) :
    tokenizePercent ('%' :: h1 :: h2 :: rest)
      = match hexCharVal h1, hexCharVal h2 with
        | some a, some b => (tokenizePercent rest).map (fun us => Sum.inr (a * 16 + b) :: us)
        | _, _ => none := rfl

theorem tokenizePercent_pct (b : Nat) (hb : b < 256) (rest : List Char) :
    tokenizePercent (pctByte b ++ rest)
      = (tokenizePercent rest).map (fun us => Sum.inr b :: us) := by
  have h1 : b / 16 < 16 := by omega
  have h2 : b % 16 < 16 := by omega
  simp only [pctByte, List.cons_append, List.nil_append]
  rw [tokenizePercent_pctHead, hexCharVal_hexDigitChar _ h1, hexCharVal_hexDigitChar _ h2]
  simp only [show b / 16 * 16 + b % 16 = b from by omega]

theorem tokenizePercent_pctList (bs : List Nat) (hb : ∀ b ∈ bs, b < 256)
    (rest : List Char) (us : List (Char ⊕ Nat)) (h : tokenizePercent rest = some us) :
    tokenizePercent (bs.flatMap pctByte ++ rest) = some (bs.map Sum.inr ++ us) := by
  induction bs with
  | nil => simpa using h
  | cons b bs ih =>
    rw [List.flatMap_cons, List.append_assoc,
      tokenizePercent_pct b (hb b (List.mem_cons_self b bs)) _,
      ih (fun x hx => hb x (List.mem_cons_of_mem b hx))]
    rfl

theorem tokenizePercent_encode (l : List Char) :
    tokenizePercent (l.flatMap percentEncodeChar) = some (l.flatMap encUnits) := by
  induction l with
  | nil => rfl
  | cons c l ih =>
    rw [List.flatMap_cons, List.flatMap_cons]
    by_cases hc : isUnreservedURI c
    · rw [show percentEncodeChar c = [c] from by simp [percentEncodeChar, hc]]
      have hcp : c ≠ '%' := by
        intro h
        rw [h] at hc
        exact absurd hc (by decide)
      rw [List.singleton_append, tokenizePercent_plain c _ hcp, ih]
      rw [show encUnits c = [Sum.inl c] from by simp [encUnits, hc]]
      rfl
    · rw [show percentEncodeChar c = (utf8Bytes c.toNat).flatMap pctByte from by
        simp [percentEncodeChar, hc]]
      rw [show encUnits c = (utf8Bytes c.toNat).map Sum.inr from by simp [encUnits, hc]]
      have hval : c.toNat < 0xd800 ∨ (0xdfff < c.toNat ∧ c.toNat < 0x110000) := c.valid
      have hlt : c.toNat < 0x110000 := by omega
      rw [tokenizePercent_pctList (utf8Bytes c.toNat) (utf8Bytes_lt c.toNat hlt) _ _ ih]

theorem utf8Acc_none_inl (c : Char) (rest : List (Char ⊕ Nat)) :
    utf8Acc none (Sum.inl c :: rest) = (utf8Acc none rest).map (fun cs => c :: cs) := rfl

theorem utf8Acc_none_inr (b : Nat) (rest : List (Char ⊕ Nat)) :
    utf8Acc none (Sum.inr b :: rest)
      = if b < 0x80 then (utf8Acc none rest).map (fun cs => Char.ofNat b :: cs)
        else if b < 0xC2 then none
        else if b < 0xE0 then utf8Acc (some (1, b - 0xC0, 2)) rest
        else if b < 0xF0 then utf8Acc (some (2, b - 0xE0, 3)) rest
        else if b < 0xF5 then utf8Acc (some (3, b - 0xF0, 4)) rest
        else none := rfl

theorem utf8Acc_one (acc total b : Nat) (rest : List (Char ⊕ Nat)) :
    utf8Acc (some (1, acc, total)) (Sum.inr b :: rest)
      = if 0x80 ≤ b ∧ b < 0xC0 then
          if utf8ScalarOk total (acc * 64 + (b - 0x80)) then
            (utf8Acc none rest).map (fun cs => Char.ofNat (acc * 64 + (b - 0x80)) :: cs)
          else none
        else none := rfl

theorem utf8Acc_two (acc total b : Nat) (rest : List (Char ⊕ Nat)) :
    utf8Acc (some (2, acc, total)) (Sum.inr b :: rest)
      = if 0x80 ≤ b ∧ b < 0xC0 then
          utf8Acc (some (1, acc * 64 + (b - 0x80), total)) rest
        else none := rfl

theorem utf8Acc_three (acc total b : Nat) (rest : List (Char ⊕ Nat)) :
    utf8Acc (some (3, acc, total)) (Sum.inr b :: rest)
      = if 0x80 ≤ b ∧ b < 0xC0 then
          utf8Acc (some (2, acc * 64 + (b - 0x80), total)) rest
        else none := rfl

theorem utf8Acc_enc (c : Char) (us : List (Char ⊕ Nat)) (cs : List Char)
    (h : utf8Acc none us = some cs) :
    utf8Acc none (encUnits c ++ us) = some (c :: cs) := by
  have hofn : Char.ofNat c.toNat = c := charOfNat_toNat c
  have hval : c.toNat < 0xd800 ∨ (0xdfff < c.toNat ∧ c.toNat < 0x110000) := c.valid
  by_cases hc : isUnreservedURI c
  · rw [show encUnits c = [Sum.inl c] from by simp [encUnits, hc], List.singleton_append,
      utf8Acc_none_inl]
    simp [h]
  · rw [show encUnits c = (utf8Bytes c.toNat).map Sum.inr from by simp [encUnits, hc]]
    unfold utf8Bytes
    by_cases h1 : c.toNat < 0x80
    · rw [if_pos h1]
      simp only [List.map_cons, List.map_nil, List.cons_append, List.nil_append]
      rw [utf8Acc_none_inr, if_pos h1]
      simp [h, hofn]
    · by_cases h2 : c.toNat < 0x800
      · rw [if_neg h1, if_pos h2]
        simp only [List.map_cons, List.map_nil, List.cons_append, List.nil_append]
        rw [utf8Acc_none_inr, if_neg (by omega), if_neg (by omega), if_pos (by omega),
          utf8Acc_one, if_pos (by omega)]
        simp only [show (0xC0 + c.toNat / 64 - 0xC0) * 64 + (0x80 + c.toNat % 64 - 0x80)
            = c.toNat from by omega]
        simp only [show utf8ScalarOk 2 c.toNat = true from by
          simp only [utf8ScalarOk]
          norm_num
          omega]
        simp [h, hofn]
      · by_cases h3 : c.toNat < 0x10000
        · rw [if_neg h1, if_neg h2, if_pos h3]
          simp only [List.map_cons, List.map_nil, List.cons_append, List.nil_append]
          rw [utf8Acc_none_inr, if_neg (by omega), if_neg (by omega), if_neg (by omega),
            if_pos (by omega), utf8Acc_two, if_pos (by omega), utf8Acc_one, if_pos (by omega)]
          simp only [show ((0xE0 + c.toNat / 4096 - 0xE0) * 64 + (0x80 + c.toNat / 64 % 64 - 0x80)) * 64
              + (0x80 + c.toNat % 64 - 0x80) = c.toNat from by omega]
          simp only [show utf8ScalarOk 3 c.toNat = true from by
            simp only [utf8ScalarOk]
            norm_num
            omega]
          simp [h, hofn]
        · rw [if_neg h1, if_neg h2, if_neg h3]
          simp only [List.map_cons, List.map_nil, List.cons_append, List.nil_append]
          rw [utf8Acc_none_inr, if_neg (by omega), if_neg (by omega), if_neg (by omega),
            if_neg (by omega), if_pos (by omega), utf8Acc_three, if_pos (by omega),
            utf8Acc_two, if_pos (by omega), utf8Acc_one, if_pos (by omega)]
          simp only [show (((0xF0 + c.toNat / 0x40000 - 0xF0) * 64 + (0x80 + c.toNat / 4096 % 64 - 0x80)) * 64
              + (0x80 + c.toNat / 64 % 64 - 0x80)) * 64 + (0x80 + c.toNat % 64 - 0x80)
              = c.toNat from by omega]
          simp only [show utf8ScalarOk 4 c.toNat = true from by
            simp only [utf8ScalarOk]
            norm_num
            omega]
          simp [h, hofn]

theorem utf8DecodeUnits_encList (l : List Char) :
    utf8DecodeUnits (l.flatMap encUnits) = some l := by
  unfold utf8DecodeUnits
  induction l with
  | nil => rfl
  | cons c l ih =>
    rw [List.flatMap_cons]
    exact utf8Acc_enc c _ l ih

/-- Strict percent-encoding round-trips through `decodeURIComponent`: the
decoder recovers every storage key exactly, special characters included. -/
theorem decodeURIComponent_encodeURIComponent (s : String) :
    decodeURIComponent (encodeURIComponent s) = some s := by
  unfold decodeURIComponent
  have h1 : (encodeURIComponent s).data = s.data.flatMap percentEncodeChar := rfl
  rw [h1, tokenizePercent_encode]
  simp [utf8DecodeUnits_encList, mk_data]

theorem consHead_ne_nil (c : Char) (xs : List (List Char)) : consHead c xs ≠ [] := by
  cases xs <;> simp [consHead]

theorem jsSplitMarker_not_marker (c : Char) (rest : List Char)
    (h : ¬(c :: rest).take 3 = ['/', 'o', '/']) :
    jsSplitMarker (c :: rest) = consHead c (jsSplitMarker rest) := by
  by_cases hc : c = '/'
  · subst hc
    cases rest with
    | nil => simp [jsSplitMarker]
    | cons a l =>
      by_cases ha : a = 'o'
      · subst ha
        cases l with
        | nil => simp [jsSplitMarker]
        | cons a2 l2 =>
          by_cases ha2 : a2 = '/'
          · subst ha2
            exact absurd rfl h
          · simp [jsSplitMarker, ha2]
      · simp [jsSplitMarker, ha]
  · cases rest with
    | nil => simp [jsSplitMarker, hc]
    | cons a l =>
      cases l with
      | nil => simp [jsSplitMarker, hc]
      | cons a2 l2 => simp [jsSplitMarker, hc]

theorem hasMarker_cons (c : Char) (rest : List Char) :
    hasMarker (c :: rest)
      = (decide ((c :: rest).take 3 = ['/', 'o', '/']) || hasMarker rest) := rfl

theorem jsSplitMarker_of_no_marker (l : List Char) (h : hasMarker l = false) :
    jsSplitMarker l = [l] := by
  induction l with
  | nil => rfl
  | cons c rest ih =>
    rw [hasMarker_cons, Bool.or_eq_false_iff] at h
    rw [jsSplitMarker_not_marker c rest (by simpa using h.1), ih h.2]
    rfl

theorem jsSplitMarker_boundary (l₁ l₂ : List Char)
    (h : hasMarker (l₁ ++ ['/']) = false) :
    jsSplitMarker (l₁ ++ '/' :: 'o' :: '/' :: l₂) = l₁ :: jsSplitMarker l₂ := by
  induction l₁ with
  | nil => simp [jsSplitMarker]
  | cons c l₁' ih =>
    rw [List.cons_append] at h
    rw [hasMarker_cons, Bool.or_eq_false_iff] at h
    have hnm : ¬(c :: (l₁' ++ '/' :: 'o' :: '/' :: l₂)).take 3 = ['/', 'o', '/'] := by
      intro hm
      cases l₁' with
      | nil => simp at hm
      | cons a l'' =>
        cases l'' with
        | nil =>
          simp only [List.cons_append, List.nil_append] at hm
          simp only [List.take_succ_cons, List.take_zero] at hm
          rcases hm with ⟨rfl, rfl, -⟩
          simp at h
        | cons a2 l''' =>
          simp only [List.cons_append] at hm
          simp only [List.take_succ_cons, List.take_zero] at hm
          rcases hm with ⟨rfl, rfl, rfl⟩
          simp [List.take_succ_cons] at h
    rw [List.cons_append, jsSplitMarker_not_marker _ _ hnm, ih h.2]
    rfl

theorem hasMarker_false_of_no_slash (l : List Char) (h : '/' ∉ l) :
    hasMarker l = false := by
  induction l with
  | nil => rfl
  | cons c rest ih =>
    simp only [List.mem_cons, not_or] at h
    rw [hasMarker_cons, Bool.or_eq_false_iff]
    refine ⟨?_, ih h.2⟩
    simp only [decide_eq_false_iff_not]
    intro hm
    have hc : c = '/' := by
      have h0 := congrArg List.head? hm
      simpa using h0
    exact h.1 hc.symm

theorem hasMarker_append_slash_false (b : List Char) (hb : '/' ∉ b) :
    hasMarker (b ++ ['/']) = false := by
  induction b with
  | nil => decide
  | cons x r ih =>
    simp only [List.mem_cons, not_or] at hb
    rw [List.cons_append, hasMarker_cons, Bool.or_eq_false_iff]
    refine ⟨?_, ih hb.2⟩
    simp only [decide_eq_false_iff_not]
    intro hm
    have hx : x = '/' := by
      have h0 := congrArg List.head? hm
      simpa using h0
    exact hb.1 hx.symm

theorem dropWhile_append_of_all {α : Type} (p : α → Bool) (l₁ l₂ : List α)
    (h : ∀ c ∈ l₁, p c = true) :
    (l₁ ++ l₂).dropWhile p = l₂.dropWhile p := by
  induction l₁ with
  | nil => simp
  | cons c l ih =>
    simp [List.dropWhile_cons, h c (List.mem_cons_self c l),
      ih (fun x hx => h x (List.mem_cons_of_mem c hx))]

theorem dropWhile_cons_neg {α : Type} (p : α → Bool) (a : α) (l : List α) (h : p a = false) :
    (a :: l).dropWhile p = a :: l := by
  simp [List.dropWhile_cons, h]

theorem takeWhile_cons_neg {α : Type} (p : α → Bool) (a : α) (l : List α) (h : p a = false) :
    (a :: l).takeWhile p = [] := by
  simp [List.takeWhile_cons, h]

theorem takeWhile_eq_self_of_all {α : Type} (p : α → Bool) (l : List α)
    (h : ∀ c ∈ l, p c = true) : l.takeWhile p = l := by
  have h2 := takeWhile_append_of_all p l [] h
  simpa using h2

theorem string_data_inj (a b : String) (h : a.data = b.data) : a = b := by
  cases a
  cases b
  exact congrArg String.mk h

theorem mem_pathChars {c : Char} (bucket key : String)
    (hc : c ∈ '/' :: 'v' :: '0' :: '/' :: 'b' :: '/' ::
      (bucket.data ++ '/' :: 'o' :: '/' :: (encodeURIComponent key).data)) :
    c ∈ (['/', 'v', '0', 'b', 'o'] : List Char) ∨ c ∈ bucket.data
      ∨ c ∈ (encodeURIComponent key).data := by
  simp only [List.mem_cons, List.mem_append, List.not_mem_nil, or_false] at hc ⊢
  tauto

theorem hasMarker_url_prefix (b : List Char) (hb : '/' ∉ b) (hbo : b ≠ ['o']) :
    hasMarker (('/' :: 'v' :: '0' :: '/' :: 'b' :: '/' :: b) ++ ['/']) = false := by
  rcases b with _ | ⟨x, _ | ⟨y, r⟩⟩
  · decide
  · have hx : x ≠ 'o' := fun h => hbo (by rw [h])
    have hxs : x ≠ '/' := by
      intro h
      exact hb (by simp [h])
    simp [hasMarker, List.take_succ_cons, hx, hxs]
  · have hx : x ≠ '/' := by
      intro h
      exact hb (by simp [h])
    have hy : y ≠ '/' := by
      intro h
      exact hb (by simp [h])
    have hr : '/' ∉ r := fun h => hb (by simp [h])
    have htail := hasMarker_append_slash_false r hr
    simp [hasMarker, List.take_succ_cons, hx, hy, htail]

theorem parseURL_firebase (bucket key tok : String)
    (hb1 : '/' ∉ bucket.data) (hb2 : '?' ∉ bucket.data) (hb3 : '#' ∉ bucket.data) :
    parseURL (firebaseDownloadURL bucket key tok)
      = some ⟨⟨'/' :: 'v' :: '0' :: '/' :: 'b' :: '/' ::
          (bucket.data ++ '/' :: 'o' :: '/' :: (encodeURIComponent key).data)⟩⟩ := by
  have hdata : (firebaseDownloadURL bucket key tok).data
      = "https://".data ++ ("firebasestorage.googleapis.com".data
        ++ ('/' :: 'v' :: '0' :: '/' :: 'b' :: '/' ::
            (bucket.data ++ '/' :: 'o' :: '/' ::
              ((encodeURIComponent key).data
                ++ '?' :: ("alt=media&token=".data ++ tok.data))))) := by
    simp [firebaseDownloadURL, data_append]
  unfold parseURL
  rw [hdata, List.take_left' (by rfl), List.drop_left' (by rfl), if_pos rfl,
    dropWhile_append_of_all _ _ _ (by decide), dropWhile_cons_neg _ _ _ (by decide),
    List.head?_cons, if_pos rfl]
  rw [show ('/' :: 'v' :: '0' :: '/' :: 'b' :: '/' ::
      (bucket.data ++ '/' :: 'o' :: '/' ::
        ((encodeURIComponent key).data ++ '?' :: ("alt=media&token=".data ++ tok.data))))
      = ('/' :: 'v' :: '0' :: '/' :: 'b' :: '/' ::
          (bucket.data ++ '/' :: 'o' :: '/' :: (encodeURIComponent key).data))
        ++ '?' :: ("alt=media&token=".data ++ tok.data) from by simp]
  rw [takeWhile_append_of_all _ _ _ ?hall, takeWhile_cons_neg _ _ _ (by decide),
    List.append_nil]
  case hall =>
    intro c hc
    rcases mem_pathChars bucket key hc with h | h | h
    · simp only [List.mem_cons, List.not_mem_nil, or_false] at h
      rcases h with rfl | rfl | rfl | rfl | rfl <;> decide
    · simp only [decide_eq_true_eq]
      exact ⟨fun he => hb2 (he ▸ h), fun he => hb3 (he ▸ h)⟩
    · simp only [decide_eq_true_eq]
      exact ⟨fun he => qmark_not_mem_enc key (he ▸ h), fun he => hash_not_mem_enc key (he ▸ h)⟩

theorem extractEncodedPath_firebase (bucket key : String)
    (hb1 : '/' ∉ bucket.data) (hbo : bucket ≠ "o") :
    extractEncodedPath ⟨'/' :: 'v' :: '0' :: '/' :: 'b' :: '/' ::
        (bucket.data ++ '/' :: 'o' :: '/' :: (encodeURIComponent key).data)⟩
      = encodeURIComponent key := by
  unfold extractEncodedPath
  have hbo' : bucket.data ≠ ['o'] := by
    intro h
    exact hbo (string_data_inj bucket "o" h)
  have hm := hasMarker_url_prefix bucket.data hb1 hbo'
  have hsd : (⟨'/' :: 'v' :: '0' :: '/' :: 'b' :: '/' ::
      (bucket.data ++ '/' :: 'o' :: '/' :: (encodeURIComponent key).data)⟩ : String).data
      = ('/' :: 'v' :: '0' :: '/' :: 'b' :: '/' :: bucket.data)
        ++ '/' :: 'o' :: '/' :: (encodeURIComponent key).data := by simp
  rw [hsd, jsSplitMarker_boundary _ _ (by simpa using hm),
    jsSplitMarker_of_no_marker _ (hasMarker_false_of_no_slash _ (slash_not_mem_enc key))]
  have ht : (encodeURIComponent key).data.takeWhile (fun c => c ≠ '?')
      = (encodeURIComponent key).data := by
    apply takeWhile_eq_self_of_all
    intro c hc
    simp only [decide_eq_true_eq]
    exact fun he => qmark_not_mem_enc key (he ▸ hc)
  simp only [ne_eq, decide_not] at ht
  simp [ht, mk_data]

theorem parsedKey_firebase (bucket key tok : String)
    (hb1 : '/' ∉ bucket.data) (hb2 : '?' ∉ bucket.data) (hb3 : '#' ∉ bucket.data)
    (hbo : bucket ≠ "o") :
    parsedKey (firebaseDownloadURL bucket key tok) = some key := by
  unfold parsedKey
  rw [parseURL_firebase bucket key tok hb1 hb2 hb3]
  simp only []
  rw [extractEncodedPath_firebase bucket key hb1 hbo]
  exact decodeURIComponent_encodeURIComponent key

theorem deleteImage_calls_key (store : String → DeleteOutcome) (bucket tok key : String)
    (hb1 : '/' ∉ bucket.data) (hb2 : '?' ∉ bucket.data) (hb3 : '#' ∉ bucket.data)
    (hbo : bucket ≠ "o") (hk : key ≠ "") :
    (deleteImage store (firebaseDownloadURL bucket key tok)).deleteCalls = [key] := by
  unfold deleteImage deleteAttempt
  rw [parseURL_firebase bucket key tok hb1 hb2 hb3]
  simp only []
  rw [extractEncodedPath_firebase bucket key hb1 hbo, decodeURIComponent_encodeURIComponent]
  simp only []
  rw [if_neg hk]
  rcases store key with _ | code
  · rfl
  · simp only []
    split <;> rfl

theorem getTattooImagePath_ne_empty (u t f : String) (ts : Nat) :
    getTattooImagePath u t f ts ≠ "" := by
  intro h
  have hd := congrArg String.data h
  simp [getTattooImagePath, data_append] at hd

theorem getGeneratedTattooImagePath_ne_empty (u t : String) (ts : Nat) :
    getGeneratedTattooImagePath u t ts ≠ "" := by
  intro h
  have hd := congrArg String.data h
  simp [getGeneratedTattooImagePath, data_append] at hd

/-- Claim C1: for every storage key produced by either path builder, the
provider-issued download URL (key percent-encoded after the `/o/` marker,
followed by a query string) is inverted exactly by `deleteImage`'s parsing
rule — the segment after `/o/`, cut at the first `?`, percent-decoded — so
`deleteImage` issues a delete request for exactly that key, special
characters included.  The bucket hypotheses say the URL's bucket segment is
a well-formed bucket name: no `/`, `?` or `#`, and not the pathological
name `"o"` (which would create an earlier `/o/` marker). -/
theorem deleteImage_roundtrip_builders (store : String → DeleteOutcome)
    (bucket tok u t f : String) (ts : Nat)
    (hb1 : '/' ∉ bucket.data) (hb2 : '?' ∉ bucket.data) (hb3 : '#' ∉ bucket.data)
    (hbo : bucket ≠ "o") :
    (deleteImage store
        (firebaseDownloadURL bucket (getTattooImagePath u t f ts) tok)).deleteCalls
      = [getTattooImagePath u t f ts]
    ∧ (deleteImage store
        (firebaseDownloadURL bucket (getGeneratedTattooImagePath u t ts) tok)).deleteCalls
      = [getGeneratedTattooImagePath u t ts] :=
  ⟨deleteImage_calls_key store bucket tok _ hb1 hb2 hb3 hbo
      (getTattooImagePath_ne_empty u t f ts),
   deleteImage_calls_key store bucket tok _ hb1 hb2 hb3 hbo
      (getGeneratedTattooImagePath_ne_empty u t ts)⟩

theorem deleteImage_roundtrip_builders_witness :
    (deleteImage (fun _ => DeleteOutcome.ok)
        (firebaseDownloadURL "bkt" (getTattooImagePath "u" "t" "a.png" 0) "tk")).deleteCalls
      = [getTattooImagePath "u" "t" "a.png" 0] :=
  (deleteImage_roundtrip_builders (fun _ => DeleteOutcome.ok) "bkt" "tk" "u" "t" "a.png" 0
    (by decide) (by decide) (by decide) (by decide)).1

/-- Claim C4: whenever the parsing rule yields no key — the URL does not
parse, decoding throws, or the split finds no marker segment (empty
recovered path) — `deleteImage` makes no store call and resolves without
propagating an error to its caller; when the rule returns the empty key
(marker absent but URL well-formed) nothing is logged either. -/
theorem deleteImage_noKey_noop (store : String → DeleteOutcome) (url : String)
    (h : parsedKey url = none ∨ parsedKey url = some "") :
    (deleteImage store url).deleteCalls = []
    ∧ (deleteImage store url).thrown = none
    ∧ (parsedKey url = some "" → (deleteImage store url).logged = []) := by
  rcases hp : parseURL url with _ | u
  · have hR : deleteImage store url = ⟨[], [JsError.urlParse], none⟩ := by
      unfold deleteImage deleteAttempt
      rw [hp]
      rfl
    have hpk : parsedKey url = none := by
      unfold parsedKey
      rw [hp]
    rw [hR]
    refine ⟨rfl, rfl, fun h3 => ?_⟩
    rw [hpk] at h3
    cases h3
  · rcases hd : decodeURIComponent (extractEncodedPath u.pathname) with _ | path
    · have hR : deleteImage store url = ⟨[], [JsError.uriMalformed], none⟩ := by
        unfold deleteImage deleteAttempt
        rw [hp]
        simp only [hd]
        rfl
      have hpk : parsedKey url = none := by
        unfold parsedKey
        rw [hp]
        simp only [hd]
      rw [hR]
      refine ⟨rfl, rfl, fun h3 => ?_⟩
      rw [hpk] at h3
      cases h3
    · have hpk : parsedKey url = some path := by
        unfold parsedKey
        rw [hp]
        simp only [hd]
      have hpath : path = "" := by
        rcases h with h0 | h0 <;> rw [hpk] at h0
        · cases h0
        · exact Option.some.inj h0
      subst hpath
      have hR : deleteImage store url = ⟨[], [], none⟩ := by
        unfold deleteImage deleteAttempt
        rw [hp]
        simp only [hd]
        rfl
      rw [hR]
      exact ⟨rfl, rfl, fun _ => rfl⟩

theorem deleteImage_noKey_noop_witness :
    (deleteImage (fun _ => DeleteOutcome.ok) "https://example.com/x").deleteCalls = []
    ∧ (deleteImage (fun _ => DeleteOutcome.ok) "https://example.com/x").thrown = none
    ∧ (deleteImage (fun _ => DeleteOutcome.ok) "https://example.com/x").logged = [] :=
  ⟨(deleteImage_noKey_noop (fun _ => DeleteOutcome.ok) "https://example.com/x"
      (Or.inr (by decide))).1,
   (deleteImage_noKey_noop (fun _ => DeleteOutcome.ok) "https://example.com/x"
      (Or.inr (by decide))).2.1,
   (deleteImage_noKey_noop (fun _ => DeleteOutcome.ok) "https://example.com/x"
      (Or.inr (by decide))).2.2 (by decide)⟩

/-- Claim C5: `deleteImage` never propagates an error to its caller,
whatever the URL and whatever the store's delete call returns; a
`storage/object-not-found` outcome is treated as success (early return,
nothing logged), and any other store failure is swallowed after being
recorded via `console.error`. -/
theorem deleteImage_never_throws (store : String → DeleteOutcome) (url : String) :
    (deleteImage store url).thrown = none
    ∧ (∀ p, (deleteImage store url).deleteCalls = [p] →
        store p = DeleteOutcome.err "storage/object-not-found" →
        (deleteImage store url).logged = [])
    ∧ (∀ p code, (deleteImage store url).deleteCalls = [p] →
        store p = DeleteOutcome.err code → code ≠ "storage/object-not-found" →
        (deleteImage store url).logged = [JsError.storage code]) := by
  rcases hp : parseURL url with _ | u
  · have hR : deleteImage store url = ⟨[], [JsError.urlParse], none⟩ := by
      unfold deleteImage deleteAttempt
      rw [hp]
      rfl
    rw [hR]
    refine ⟨rfl, fun p hcalls _ => ?_, fun p code hcalls _ _ => ?_⟩ <;> cases hcalls
  · rcases hd : decodeURIComponent (extractEncodedPath u.pathname) with _ | path
    · have hR : deleteImage store url = ⟨[], [JsError.uriMalformed], none⟩ := by
        unfold deleteImage deleteAttempt
        rw [hp]
        simp only [hd]
        rfl
      rw [hR]
      refine ⟨rfl, fun p hcalls _ => ?_, fun p code hcalls _ _ => ?_⟩ <;> cases hcalls
    · by_cases hpe : path = ""
      · subst hpe
        have hR : deleteImage store url = ⟨[], [], none⟩ := by
          unfold deleteImage deleteAttempt
          rw [hp]
          simp only [hd]
          rfl
        rw [hR]
        refine ⟨rfl, fun p hcalls _ => ?_, fun p code hcalls _ _ => ?_⟩ <;> cases hcalls
      · rcases hs : store path with _ | code
        · have hR : deleteImage store url = ⟨[path], [], none⟩ := by
            unfold deleteImage deleteAttempt
            rw [hp]
            simp only [hd]
            rw [if_neg hpe, hs]
          rw [hR]
          refine ⟨rfl, fun _ _ _ => rfl, fun p code hcalls hsp _ => ?_⟩
          have hpp : p = path := by
            have := hcalls.symm
            simpa using this
          subst hpp
          rw [hs] at hsp
          cases hsp
        · by_cases hcode : code = "storage/object-not-found"
          · have hR : deleteImage store url = ⟨[path], [], none⟩ := by
              unfold deleteImage deleteAttempt
              rw [hp]
              simp only [hd]
              rw [if_neg hpe, hs]
              simp [errCode, hcode]
            rw [hR]
            refine ⟨rfl, fun _ _ _ => rfl, fun p code' hcalls hsp hne => ?_⟩
            have hpp : p = path := by
              have := hcalls.symm
              simpa using this
            subst hpp
            rw [hs] at hsp
            injection hsp with hcc
            exact absurd (hcc.symm.trans hcode) hne
          · have hR : deleteImage store url = ⟨[path], [JsError.storage code], none⟩ := by
              unfold deleteImage deleteAttempt
              rw [hp]
              simp only [hd]
              rw [if_neg hpe, hs]
              simp [errCode, hcode]
            rw [hR]
            refine ⟨rfl, fun p hcalls hsp => ?_, fun p code' hcalls hsp hne => ?_⟩
            · have hpp : p = path := by
                have := hcalls.symm
                simpa using this
              subst hpp
              rw [hs] at hsp
              injection hsp with hcc
              exact absurd hcc hcode
            · have hpp : p = path := by
                have := hcalls.symm
                simpa using this
              subst hpp
              rw [hs] at hsp
              injection hsp with hcc
              rw [hcc]

theorem deleteImage_never_throws_witness :
    (deleteImage (fun _ => DeleteOutcome.err "storage/object-not-found")
        (firebaseDownloadURL "b" "k" "tk")).thrown = none
    ∧ (deleteImage (fun _ => DeleteOutcome.err "storage/object-not-found")
        (firebaseDownloadURL "b" "k" "tk")).logged = [] :=
  ⟨(deleteImage_never_throws (fun _ => DeleteOutcome.err "storage/object-not-found")
      (firebaseDownloadURL "b" "k" "tk")).1,
   (deleteImage_never_throws (fun _ => DeleteOutcome.err "storage/object-not-found")
      (firebaseDownloadURL "b" "k" "tk")).2.1 "k" (by decide) rfl⟩

/-- Claim C7: `uploadImage` first writes the bytes at the given key, then
resolves the store's download URL for it, returning that URL on success;
a failure of either step is propagated to the caller unmodified, with no
retry (each store call happens at most once) and no partial-success
result. -/
theorem uploadImage_seq_spec (ops : StoreOps) (file : JsFile) (path : String) :
    (∀ e, ops.uploadBytes path file = .error e →
      uploadImage ops file path = ⟨[.put path file], .error e⟩)
    ∧ (∀ e, ops.uploadBytes path file = .ok () → ops.getDownloadURL path = .error e →
      uploadImage ops file path = ⟨[.put path file, .resolveUrl path], .error e⟩)
    ∧ (∀ u, ops.uploadBytes path file = .ok () → ops.getDownloadURL path = .ok u →
      uploadImage ops file path = ⟨[.put path file, .resolveUrl path], .ok u⟩) := by
  refine ⟨fun e h1 => ?_, fun e h1 h2 => ?_, fun u h1 h2 => ?_⟩ <;>
    · unfold uploadImage
      rw [h1]
      try rw [h2]

theorem uploadImage_seq_spec_witness :
    uploadImage ⟨fun _ _ => .ok (), fun p => .ok ("https://cdn/" ++ p)⟩ ⟨"a.png", "image/png", [1]⟩ "k"
      = ⟨[.put "k" ⟨"a.png", "image/png", [1]⟩, .resolveUrl "k"], .ok ("https://cdn/" ++ "k")⟩ :=
  (uploadImage_seq_spec ⟨fun _ _ => .ok (), fun p => .ok ("https://cdn/" ++ p)⟩
    ⟨"a.png", "image/png", [1]⟩ "k").2.2 ("https://cdn/" ++ "k") rfl rfl

/-- Claim C8: `blobUrlToFile` on a successfully fetched blob returns a file
whose name is `fileName`, whose bytes are the blob's bytes, and whose MIME
type is the blob's reported type when that is non-empty and `"image/png"`
when the blob reports no type. -/
theorem blobUrlToFile_spec (fetchBlob : String → Except JsError JsBlob)
    (blobUrl fileName : String) (blob : JsBlob) (h : fetchBlob blobUrl = .ok blob) :
    ∃ file, blobUrlToFile fetchBlob blobUrl fileName = .ok file
      ∧ file.name = fileName
      ∧ (blob.type ≠ "" → file.type = blob.type)
      ∧ (blob.type = "" → file.type = "image/png")
      ∧ file.bytes = blob.bytes := by
  refine ⟨_, by unfold blobUrlToFile; rw [h], rfl, fun hne => ?_, fun he => ?_, rfl⟩
  · simp [hne]
  · simp [he]

theorem blobUrlToFile_spec_witness :
    ∃ file, blobUrlToFile (fun _ => .ok ⟨"", [7]⟩) "blob:x" "x.png" = .ok file
      ∧ file.name = "x.png"
      ∧ (("" : String) ≠ "" → file.type = "")
      ∧ (("" : String) = "" → file.type = "image/png")
      ∧ file.bytes = [7] :=
  blobUrlToFile_spec (fun _ => .ok ⟨"", [7]⟩) "blob:x" "x.png" ⟨"", [7]⟩ rfl

end Storage
